import Mathlib

/-!
Verification of the OpenStream frontend (frontend/src) and of the
spec-level log-coordination model (ordered log ids, lease, backpressure).
Definitions are shallow embeddings of the TypeScript source; components
whose implementation is not part of this tree are modelled from the spec
and marked as such in their doc comments.
-/

namespace OpenStream

/-- Runtime configuration produced by getConfig (frontend/src/config.ts). -/
structure RuntimeConfig where
  apiBaseUrl : String
  grafanaUrl : String
  prometheusUrl : String
deriving Repr, DecidableEq

/-- normalizeBaseUrl (config.ts): u.replace of the trailing run of slashes
with the empty string, i.e. drop every trailing slash character. -/
def normalizeBaseUrl (u : String) : String :=
  ⟨(u.data.reverse.dropWhile (fun c => c = '/')).reverse⟩

/-- JavaScript string fallback a || b: undefined (none) and the empty
string are falsy, so they fall through to b. -/
def orElseJS (a : Option String) (b : String) : String :=
  match a with
  | some s => if s = "" then b else s
  | none => b

/-- The inputs getConfig reads: window.__OPENSTREAM_CONFIG__ fields and
import.meta.env VITE_* values, each possibly absent. -/
structure ConfigSources where
  windowApiBaseUrl : Option String
  windowGrafanaUrl : Option String
  windowPrometheusUrl : Option String
  envApiBaseUrl : Option String
  envGrafanaUrl : Option String
  envPrometheusUrl : Option String
deriving Repr

/-- getConfig (config.ts): for each URL, window override || VITE_* env
value || built-in default, then normalizeBaseUrl. -/
def getConfig (src : ConfigSources) : RuntimeConfig where
  apiBaseUrl :=
    normalizeBaseUrl (orElseJS src.windowApiBaseUrl
      (orElseJS src.envApiBaseUrl "http://localhost:8000"))
  grafanaUrl :=
    normalizeBaseUrl (orElseJS src.windowGrafanaUrl
      (orElseJS src.envGrafanaUrl "http://localhost:3001"))
  prometheusUrl :=
    normalizeBaseUrl (orElseJS src.windowPrometheusUrl
      (orElseJS src.envPrometheusUrl "http://localhost:9090"))

/-- Spec-side selection: the first of window value, env value, default
that is present and non-empty. -/
def firstNonEmpty (w e : Option String) (d : String) : String :=
  match w with
  | some s =>
    if s ≠ "" then s
    else match e with
      | some t => if t ≠ "" then t else d
      | none => d
  | none =>
    match e with
    | some t => if t ≠ "" then t else d
    | none => d

theorem orElseJS_eq_firstNonEmpty (w e : Option String) (d : String) :
    orElseJS w (orElseJS e d) = firstNonEmpty w e d := by
  cases w <;> cases e <;>
    simp only [orElseJS, firstNonEmpty, ne_eq, ite_not] <;>
    (try split) <;> (try split) <;> rfl

theorem normalizeBaseUrl_no_trailing_slash (u : String) :
    (normalizeBaseUrl u).data.getLast? ≠ some '/' := by
  intro h
  rw [normalizeBaseUrl, List.getLast?_reverse] at h
  have hm := List.head?_dropWhile_not (fun c => c = '/') u.data.reverse
  rw [h] at hm
  simp at hm

theorem normalizeBaseUrl_idem (u : String) :
    normalizeBaseUrl (normalizeBaseUrl u) = normalizeBaseUrl u := by
  simp only [normalizeBaseUrl, List.reverse_reverse]
  rw [List.dropWhile_idempotent]

/-- C8: every URL getConfig returns is the first present-and-non-empty of
window override, VITE_* env value, built-in default, with every trailing
slash removed; an empty-string window override falls through exactly like
an absent one; and normalizeBaseUrl is idempotent and leaves no trailing
slash. -/
theorem C8_getConfig_normalized_fallback (src : ConfigSources) (u : String) :
    (getConfig src).apiBaseUrl =
      normalizeBaseUrl (firstNonEmpty src.windowApiBaseUrl src.envApiBaseUrl
        "http://localhost:8000") ∧
    (getConfig src).grafanaUrl =
      normalizeBaseUrl (firstNonEmpty src.windowGrafanaUrl src.envGrafanaUrl
        "http://localhost:3001") ∧
    (getConfig src).prometheusUrl =
      normalizeBaseUrl (firstNonEmpty src.windowPrometheusUrl src.envPrometheusUrl
        "http://localhost:9090") ∧
    getConfig { src with windowApiBaseUrl := some "" } =
      getConfig { src with windowApiBaseUrl := none } ∧
    (normalizeBaseUrl u).data.getLast? ≠ some '/' ∧
    normalizeBaseUrl (normalizeBaseUrl u) = normalizeBaseUrl u := by
  refine ⟨?_, ?_, ?_, ?_, ?_, ?_⟩
  · simp [getConfig, orElseJS_eq_firstNonEmpty]
  · simp [getConfig, orElseJS_eq_firstNonEmpty]
  · simp [getConfig, orElseJS_eq_firstNonEmpty]
  · simp [getConfig, orElseJS]
  · exact normalizeBaseUrl_no_trailing_slash u
  · exact normalizeBaseUrl_idem u

/-- GroupInfo (frontend/src/types.ts): consumer-group statistics as decoded
from the summary endpoint; every field is optional in the TypeScript type.
The field written "last-delivered-id" in TypeScript is lastDeliveredId here. -/
structure GroupInfo where
  name : Option String
  consumers : Option ℚ
  pending : Option ℚ
  lag : Option ℚ
  lastDeliveredId : Option String
  entriesRead : Option ℚ
deriving Repr

/-- PartitionStat (types.ts): one partition's stream statistics. -/
structure PartitionStat where
  partition : ℚ
  stream : String
  length : ℚ
  groups : List GroupInfo
deriving Repr

/-- TopicStat (types.ts): one topic with its per-partition statistics. -/
structure TopicStat where
  topic : String
  partitions : ℚ
  partition_stats : List PartitionStat
deriving Repr

/-- Redis info block of the summary (types.ts). -/
structure RedisInfo where
  used_memory : Option ℚ
  used_memory_human : Option String
deriving Repr

/-- MetricsSummary (types.ts): the decoded body of GET /v1/metrics/summary. -/
structure MetricsSummary where
  topics : List TopicStat
  redis : RedisInfo
deriving Repr

/-- HTTP res.ok: status in the 2xx range. -/
def isOkStatus (status : Nat) : Bool := 200 ≤ status && status < 300

/-- fetchSummary (frontend/src/api.ts): a 401 status throws the exact
message "unauthorized"; any other non-ok status throws
"summary failed: status"; otherwise the JSON body is returned. -/
def fetchSummary (status : Nat) (body : MetricsSummary) :
    Except String MetricsSummary :=
  if status = 401 then Except.error "unauthorized"
  else if isOkStatus status then Except.ok body
  else Except.error ("summary failed: " ++ toString status)

/-- The dashboard state touched by refresh and logout (App.vue):
the stored token, the last summary and the displayed error. -/
structure DashState where
  token : Option String
  summary : Option MetricsSummary
  error : Option String
deriving Repr

/-- logout (App.vue): clearToken(); token, summary and error reset. -/
def logout (s : DashState) : DashState :=
  { s with token := none, summary := none, error := none }

/-- The summary branch of refresh (App.vue), given the outcome of
fetchSummary: store the summary on success; on failure log out exactly
when the message is "unauthorized", otherwise display the error. -/
def refreshSummary (s : DashState) (res : Except String MetricsSummary) :
    DashState :=
  match res with
  | Except.ok m => { s with summary := some m, error := none }
  | Except.error msg =>
    if msg = "unauthorized" then logout s else { s with error := some msg }

theorem summary_failed_ne_unauthorized (t : String) :
    ("summary failed: " ++ t) ≠ "unauthorized" := by
  intro h
  have h1 : ("summary failed: " ++ t).data.head? = some 's' := rfl
  rw [h] at h1
  exact absurd h1 (by decide)

/-- C10: fetchSummary throws "unauthorized" iff the status is 401, and
throws on every other non-ok status; refresh logs out (clearing token and
summary) exactly on the message "unauthorized", and on any other failure
leaves the token and summary unchanged and displays the message. -/
theorem C10_unauthorized_logout (status : Nat) (body : MetricsSummary)
    (s : DashState) (msg : String) :
    (fetchSummary status body = Except.error "unauthorized" ↔ status = 401) ∧
    (isOkStatus status = false → ∃ m, fetchSummary status body = Except.error m) ∧
    (msg = "unauthorized" →
      (refreshSummary s (Except.error msg)).token = none ∧
      (refreshSummary s (Except.error msg)).summary = none) ∧
    (msg ≠ "unauthorized" →
      (refreshSummary s (Except.error msg)).token = s.token ∧
      (refreshSummary s (Except.error msg)).summary = s.summary ∧
      (refreshSummary s (Except.error msg)).error = some msg) := by
  refine ⟨⟨fun h => ?_, fun h => ?_⟩, fun h => ?_, fun h => ?_, fun h => ?_⟩
  · by_contra hne
    rw [fetchSummary, if_neg hne] at h
    by_cases hok : isOkStatus status
    · rw [if_pos hok] at h
      exact Except.noConfusion h
    · rw [if_neg hok] at h
      have := Except.error.inj h
      exact summary_failed_ne_unauthorized _ this
  · rw [fetchSummary, if_pos h]
  · by_cases h401 : status = 401
    · exact ⟨"unauthorized", by rw [fetchSummary, if_pos h401]⟩
    · refine ⟨"summary failed: " ++ toString status, ?_⟩
      rw [fetchSummary, if_neg h401, if_neg (by simp [h])]
  · simp [refreshSummary, h, logout]
  · simp [refreshSummary, h]

/-- A body for witnesses: the empty summary. -/
def emptySummary : MetricsSummary :=
  { topics := [], redis := { used_memory := none, used_memory_human := none } }

/-- An initial dashboard state for witnesses. -/
def someState : DashState :=
  { token := some "tok", summary := some emptySummary, error := none }

theorem C10_unauthorized_logout_witness :
    fetchSummary 401 emptySummary = Except.error "unauthorized" ∧
    (refreshSummary someState (Except.error "unauthorized")).token = none := by
  have h := C10_unauthorized_logout 401 emptySummary someState "unauthorized"
  exact ⟨h.1.mpr rfl, (h.2.2.1 rfl).1⟩

/-- The spec-shaped view of a summary: per topic, per partition, the stream
length together with each group's (lag, pending) pair. -/
def summaryView (s : MetricsSummary) :
    List (List (ℚ × List (Option ℚ × Option ℚ))) :=
  s.topics.map fun t =>
    t.partition_stats.map fun p =>
      (p.length, p.groups.map fun g => (g.lag, g.pending))

/-- C1: every summary returned by fetchSummary carries, for each of its
topics, the per-partition stream lengths and, per consumer group of each
partition, that group's lag and pending counts: the spec-shaped view
contains, for each topic of the decoded body, exactly the list of
(length, groups' (lag, pending)) rows read off the TypeScript fields. -/
theorem C1_summary_shape (status : Nat) (body m : MetricsSummary)
    (hok : fetchSummary status body = Except.ok m) :
    ∀ t ∈ m.topics,
      (t.partition_stats.map fun p =>
        (p.length, p.groups.map fun g => (g.lag, g.pending))) ∈ summaryView m ∧
      ∀ p ∈ t.partition_stats,
        (p.length, p.groups.map fun g => (g.lag, g.pending)) ∈
          t.partition_stats.map fun p =>
            (p.length, p.groups.map fun g => (g.lag, g.pending)) := by
  intro t ht
  constructor
  · exact List.mem_map_of_mem _ ht
  · intro p hp
    exact List.mem_map_of_mem _ hp

/-- A sample consumer group for the C1 witness. -/
def sampleGroup : GroupInfo :=
  { name := some "g", consumers := some 1, pending := some 2, lag := some 3,
    lastDeliveredId := some "1730000000000-0", entriesRead := some 7 }

/-- A sample partition for the C1 witness. -/
def samplePartition : PartitionStat :=
  { partition := 0, stream := "os:stream:orders:0", length := 5,
    groups := [sampleGroup] }

/-- A sample topic for the C1 witness. -/
def sampleTopic : TopicStat :=
  { topic := "orders", partitions := 1, partition_stats := [samplePartition] }

/-- A one-topic summary for the C1 witness. -/
def oneTopicSummary : MetricsSummary :=
  { topics := [sampleTopic],
    redis := { used_memory := none, used_memory_human := none } }

theorem C1_summary_shape_witness :
    [((5 : ℚ), [((some (3 : ℚ) : Option ℚ), (some (2 : ℚ) : Option ℚ))])] ∈
      summaryView oneTopicSummary := by
  have h := C1_summary_shape 200 oneTopicSummary oneTopicSummary rfl
  have hm := (h sampleTopic (by simp [oneTopicSummary])).1
  simpa [oneTopicSummary, sampleTopic, samplePartition, sampleGroup] using hm

/-- The throughput-sampling state of the dashboard (App.vue):
lastIngestTotal and lastIngestTs, both null until the first refresh. -/
structure RateState where
  lastIngestTotal : Option ℚ
  lastIngestTs : Option ℚ
deriving Repr

/-- The throughput computation in refresh (App.vue): parse the counter
total; when a previous sample exists, display
(total - lastIngestTotal) / max 1 ((now - lastIngestTs) / 1000) and store
the new sample; on the first refresh only store the sample. Returns the
new state and the newly displayed rate (none on the first refresh). -/
def refreshRate (st : RateState) (total now : ℚ) : RateState × Option ℚ :=
  match st.lastIngestTotal, st.lastIngestTs with
  | some prevTotal, some prevTs =>
    (⟨some total, some now⟩,
      some ((total - prevTotal) / max 1 ((now - prevTs) / 1000)))
  | _, _ => (⟨some total, some now⟩, none)

/-- The Lag column of the topic table (App.vue):
p.groups.reduce((acc, g) => acc + Number(g.lag ?? 0), 0). -/
def lagColumn (p : PartitionStat) : ℚ :=
  p.groups.foldl (fun acc g => acc + g.lag.getD 0) 0

/-- The Pending column of the topic table (App.vue):
p.groups.reduce((acc, g) => acc + Number(g.pending ?? 0), 0). -/
def pendingColumn (p : PartitionStat) : ℚ :=
  p.groups.foldl (fun acc g => acc + g.pending.getD 0) 0

theorem foldl_add_getD (f : GroupInfo → Option ℚ) (gs : List GroupInfo) :
    ∀ a : ℚ, gs.foldl (fun acc g => acc + (f g).getD 0) a =
      a + (gs.map (fun g => (f g).getD 0)).sum := by
  induction gs with
  | nil => intro a; simp
  | cons g gs ih =>
    intro a
    simp only [List.foldl_cons, List.map_cons, List.sum_cons]
    rw [ih]
    ring

/-- C7: on every refresh after the first (a previous counter sample and
timestamp exist), the displayed throughput equals the delta of the summed
openstream_ingest_events_total counter divided by the elapsed seconds
floored at 1; and the per-partition Lag and Pending columns are the sums
of the groups' lag and pending values, a missing value counting as 0. -/
theorem C7_refresh_rate_and_columns (st : RateState) (total now prevTotal prevTs : ℚ)
    (h1 : st.lastIngestTotal = some prevTotal) (h2 : st.lastIngestTs = some prevTs)
    (p : PartitionStat) :
    (refreshRate st total now).2 =
      some ((total - prevTotal) / max 1 ((now - prevTs) / 1000)) ∧
    lagColumn p = (p.groups.map fun g => g.lag.getD 0).sum ∧
    pendingColumn p = (p.groups.map fun g => g.pending.getD 0).sum := by
  refine ⟨?_, ?_, ?_⟩
  · rw [refreshRate, h1, h2]
  · rw [lagColumn, foldl_add_getD (fun g => g.lag)]
    simp
  · rw [pendingColumn, foldl_add_getD (fun g => g.pending)]
    simp

theorem C7_refresh_rate_and_columns_witness :
    (refreshRate ⟨some 10, some 0⟩ 40 2000).2 = some 15 ∧
    lagColumn samplePartition = 3 := by
  have h := C7_refresh_rate_and_columns ⟨some 10, some 0⟩ 40 2000 10 0
    rfl rfl samplePartition
  refine ⟨?_, ?_⟩
  · rw [h.1]
    norm_num
  · rw [h.2.1]
    simp [samplePartition, sampleGroup]

/-- The opening brace character, by code point. -/
def lbrace : Char := Char.ofNat 123

/-- The closing brace character, by code point. -/
def rbrace : Char := Char.ofNat 125

/-- An ECMAScript LineTerminator: LF, CR, LINE SEPARATOR (U+2028),
PARAGRAPH SEPARATOR (U+2029).  With the m flag these are the characters
the anchors of the api.ts regex break at. -/
def isLineTerm (c : Char) : Bool :=
  c == '\n' || c == '\r' || c == '\u2028' || c == '\u2029'

/-- The full ECMAScript \s class: WhiteSpace (tab, VT, FF, space, NBSP
U+00A0, ZWNBSP U+FEFF and the Unicode Space_Separator characters U+1680,
U+2000..U+200A, U+202F, U+205F, U+3000) plus the LineTerminators. -/
def isJsWs (c : Char) : Bool :=
  c == ' ' || c == '\t' || c == '\n' || c == '\r' || c == '\x0b' ||
  c == '\x0c' || c == '\u00A0' || c == '\uFEFF' || c == '\u1680' ||
  (decide ('\u2000' ≤ c) && decide (c ≤ '\u200A')) || c == '\u2028' ||
  c == '\u2029' || c == '\u202F' || c == '\u205F' || c == '\u3000'

/-- The regex character class [0-9.]. -/
def isDigitDot (c : Char) : Bool :=
  (decide ('0' ≤ c) && decide (c ≤ '9')) || c == '.'

/-- Strip an exact prefix from a character list, returning the remainder. -/
def dropPfx : List Char → List Char → Option (List Char)
  | [], r => some r
  | _ :: _, [] => none
  | a :: as, b :: bs => if a = b then dropPfx as bs else none

/-- Tail of the claim's line form after the closing brace: one or more
whitespace characters, the [0-9.]+ value, optional whitespace, end of the
line.  This and the next three definitions form the decidable recognizer
of the claim's per-line reading of the counter pattern; the program's
regex itself can match across line terminators and is embedded separately
as tryMatch and scanText below. -/
def lineFormValueTail (r3 : List Char) : Option (List Char) :=
  if r3.takeWhile isJsWs = [] then none
  else if (r3.dropWhile isJsWs).takeWhile isDigitDot = [] then none
  else if ((r3.dropWhile isJsWs).dropWhile isDigitDot).all isJsWs then
    some ((r3.dropWhile isJsWs).takeWhile isDigitDot)
  else none

/-- After skipping the label block [^\x7d]*, require the closing brace
and hand the rest to the line-form value tail. -/
def lineFormBraceTail : List Char → Option (List Char)
  | [] => none
  | _ :: r3 => lineFormValueTail r3

/-- Dispatch on the result of stripping the metric name: the next
character must be the opening brace. -/
def lineFormAfterName : Option (List Char) → Option (List Char)
  | none => none
  | some [] => none
  | some (c :: r1) =>
    if c = lbrace then lineFormBraceTail (r1.dropWhile (fun x => x != rbrace))
    else none

/-- Does one line, on its own, have the form name then a brace-delimited
label block with no closing brace inside, then whitespace, then a
[0-9.]+ value, then optional whitespace to the end of the line?  The
metric name is taken literally, as at the call site, which passes a fixed
name containing no regex metacharacters. -/
def lineForm (name line : List Char) : Option (List Char) :=
  lineFormAfterName (dropPfx name line)

/-- Decimal value of a digit character. -/
def digitVal (c : Char) : ℚ := ((c.toNat - 48 : Nat) : ℚ)

/-- Integer value of a most-significant-first digit string. -/
def natValChars (ds : List Char) : ℚ :=
  ds.foldl (fun a c => 10 * a + digitVal c) 0

/-- Value of the digits after the decimal point. -/
def fracValChars (ds : List Char) : ℚ := natValChars ds / 10 ^ ds.length

/-- JS Number() on a string of characters drawn from [0-9.]: NaN (none)
unless there is at most one dot and, when a dot is present, at least one
digit. -/
def jsNumber (s : List Char) : Option ℚ :=
  match s.splitOn '.' with
  | [ds] => some (natValChars ds)
  | [ds, fs] =>
    if ds = [] && fs = [] then none
    else some (natValChars ds + fracValChars fs)
  | _ => none

/-- The suffix of a character list starting at its last LineTerminator,
if any.  After the value, the regex's greedy trailing \s* backtracks
until the multiline $ holds, so a match that does not reach the end of
the text ends just before the last LineTerminator of the trailing
whitespace run. -/
def suffixFromLastTerm : List Char → Option (List Char)
  | [] => none
  | c :: cs =>
    match suffixFromLastTerm cs with
    | some r => some r
    | none => if isLineTerm c then some (c :: cs) else none

/-- Drop characters up to and including the first LineTerminator; the
result is the next multiline ^ position, and [] when no terminator
remains. -/
def dropThroughTerm : List Char → List Char
  | [] => []
  | c :: cs => if isLineTerm c then cs else dropThroughTerm cs

/-- The tail of the regex after the closing brace, \s+([0-9.]+)\s*$,
matched at the front of s4.  \s and [0-9.] are disjoint, so the greedy
runs are forced; the final $ holds at the end of the text, or — by
backtracking inside the trailing whitespace run — just before that run's
last LineTerminator.  Returns the captured value and the unconsumed text
from the match end. -/
def tryMatchTail (s4 : List Char) : Option (List Char × List Char) :=
  if s4.takeWhile isJsWs = [] then none
  else if (s4.dropWhile isJsWs).takeWhile isDigitDot = [] then none
  else if ((s4.dropWhile isJsWs).dropWhile isDigitDot).dropWhile isJsWs = [] then
    some ((s4.dropWhile isJsWs).takeWhile isDigitDot, [])
  else
    match suffixFromLastTerm
      (((s4.dropWhile isJsWs).dropWhile isDigitDot).takeWhile isJsWs) with
    | some r =>
      some ((s4.dropWhile isJsWs).takeWhile isDigitDot,
        r ++ ((s4.dropWhile isJsWs).dropWhile isDigitDot).dropWhile isJsWs)
    | none => none

/-- After the label block [^\x7d]* (which, unlike a single line, may
contain LineTerminators), require the closing brace and match the value
tail. -/
def tryMatchBrace : List Char → Option (List Char × List Char)
  | [] => none
  | _ :: s4 => tryMatchTail s4

/-- Dispatch on the result of stripping the metric name: the next
character must be the opening brace. -/
def tryMatchAfterName : Option (List Char) → Option (List Char × List Char)
  | none => none
  | some [] => none
  | some (c :: s2) =>
    if c = lbrace then tryMatchBrace (s2.dropWhile (fun x => x != rbrace))
    else none

/-- One attempt of the api.ts regex at a multiline ^ position: the
literal metric name (the call site passes a fixed name with no regex
metacharacters), the brace-delimited label block — in which [^\x7d]
matches LineTerminators too — the closing brace, and the whitespace /
value / whitespace tail ending at a multiline $.  Returns the captured
value characters and the text remaining after the match. -/
def tryMatch (name s : List Char) : Option (List Char × List Char) :=
  tryMatchAfterName (dropPfx name s)

/-- The re.exec loop over the whole text: s is the text from a multiline
^ position; a successful attempt contributes its capture and the scan
resumes at the next ^ position at or after the match end; a failed
attempt moves to the next ^ position.  Matches never have length zero
here, so the fuel text.length + 1 lets the scan run to the end of the
text. -/
def scanText (name : List Char) : Nat → List Char → List (List Char)
  | 0, _ => []
  | fuel + 1, s =>
    match tryMatch name s with
    | some (vs, rest) => vs :: scanText name fuel (dropThroughTerm rest)
    | none =>
      match s with
      | [] => []
      | _ :: _ => scanText name fuel (dropThroughTerm s)

/-- One step of parseCounter's summation loop: the value captured by one
match is added to the running JS sum; NaN (none) contaminates the sum. -/
def countCapture (acc : Option ℚ) (vs : List Char) : Option ℚ :=
  match acc, jsNumber vs with
  | some a, some v => some (a + v)
  | _, _ => none

/-- parseCounter (api.ts): run the g/m regex over the whole metrics text
with re.exec and sum Number over the captured values; none models a JS
NaN result. -/
def parseCounter (text name : String) : Option ℚ :=
  (scanText name.data (text.data.length + 1) text.data).foldl
    countCapture (some 0)

/-- A line of the shape the claim describes: the metric name, a
brace-delimited label block, whitespace, a numeric value and optional
trailing whitespace, together with that value. -/
def SpecCounterLine (name line : List Char) (q : ℚ) : Prop :=
  ∃ labels ws1 vs ws2,
    line = name ++ lbrace :: (labels ++ rbrace :: (ws1 ++ (vs ++ ws2))) ∧
    (∀ c ∈ labels, c ≠ rbrace) ∧
    ws1 ≠ [] ∧ (∀ c ∈ ws1, isJsWs c) ∧
    vs ≠ [] ∧ (∀ c ∈ vs, isDigitDot c) ∧
    (∀ c ∈ ws2, isJsWs c) ∧
    jsNumber vs = some q

/-- One match of the program's regex at a multiline ^ position s: the
name, the label block (no closing brace, LineTerminators allowed), the
closing brace, mandatory whitespace, the value, optional whitespace, and
a multiline $ — the end of the text or a LineTerminator — together with
the numeric value of the capture. -/
def SpecMatchAt (name s : List Char) (q : ℚ) : Prop :=
  ∃ labels ws1 vs ws2 rest,
    s = name ++ lbrace :: (labels ++ rbrace :: (ws1 ++ (vs ++ (ws2 ++ rest)))) ∧
    (∀ c ∈ labels, c ≠ rbrace) ∧
    ws1 ≠ [] ∧ (∀ c ∈ ws1, isJsWs c) ∧
    vs ≠ [] ∧ (∀ c ∈ vs, isDigitDot c) ∧
    (∀ c ∈ ws2, isJsWs c) ∧
    (rest = [] ∨ ∃ t r2, rest = t :: r2 ∧ isLineTerm t = true) ∧
    jsNumber vs = some q

theorem dropPfx_eq_some (name : List Char) :
    ∀ (line rest : List Char), dropPfx name line = some rest ↔ line = name ++ rest := by
  induction name with
  | nil =>
    intro line rest
    simp [dropPfx, eq_comm]
  | cons a as ih =>
    intro line rest
    cases line with
    | nil => simp [dropPfx]
    | cons b bs =>
      rw [dropPfx]
      by_cases hab : a = b
      · rw [if_pos hab, ih]
        subst hab
        simp
      · rw [if_neg hab]
        simp only [List.cons_append, List.cons.injEq]
        constructor
        · intro h
          exact Option.noConfusion h
        · rintro ⟨h1, _⟩
          exact absurd h1.symm hab

theorem takeWhile_middle (p : Char → Bool) (x : Char) (r : List Char)
    (hx : p x = false) :
    ∀ l : List Char, (∀ c ∈ l, p c = true) →
      (l ++ x :: r).takeWhile p = l ∧ (l ++ x :: r).dropWhile p = x :: r := by
  intro l
  induction l with
  | nil =>
    intro _
    simp [List.takeWhile_cons, List.dropWhile_cons, hx]
  | cons a t ih =>
    intro hl
    have ha : p a = true := hl a (List.mem_cons_self a t)
    have ht := ih (fun c hc => hl c (List.mem_cons_of_mem a hc))
    simp [List.takeWhile_cons, List.dropWhile_cons, ha, ht.1, ht.2]

theorem takeWhile_all_eq (p : Char → Bool) :
    ∀ l : List Char, (∀ c ∈ l, p c = true) →
      l.takeWhile p = l ∧ l.dropWhile p = [] := by
  intro l
  induction l with
  | nil => intro _; simp
  | cons a t ih =>
    intro hl
    have ha : p a = true := hl a (List.mem_cons_self a t)
    have ht := ih (fun c hc => hl c (List.mem_cons_of_mem a hc))
    simp [List.takeWhile_cons, List.dropWhile_cons, ha, ht.1, ht.2]

theorem jsWs_digitDot_exclusive (c : Char) :
    ¬(isJsWs c = true ∧ isDigitDot c = true) := by
  rintro ⟨hw, hd⟩
  rw [isJsWs] at hw
  rw [isDigitDot] at hd
  simp only [Bool.or_eq_true, Bool.and_eq_true, decide_eq_true_eq,
    beq_iff_eq] at hw hd
  rcases hd with ⟨hd0, hd9⟩ | rfl
  · rcases hw with (((((((((((((rfl | rfl) | rfl) | rfl) | rfl) | rfl) |
      rfl) | rfl) | rfl) | ⟨hr1, _⟩) | rfl) | rfl) | rfl) | rfl) | rfl <;>
      first
        | exact absurd (And.intro hd0 hd9) (by decide)
        | exact absurd (le_trans hr1 hd9) (by decide)
  · exact absurd hw (by decide)

theorem digitDot_not_jsWs (c : Char) (h : isDigitDot c = true) :
    isJsWs c = false := by
  cases hw : isJsWs c
  · rfl
  · exact absurd ⟨hw, h⟩ (jsWs_digitDot_exclusive c)

theorem jsWs_not_digitDot (c : Char) (h : isJsWs c = true) :
    isDigitDot c = false := by
  cases hd : isDigitDot c
  · rfl
  · exact absurd ⟨h, hd⟩ (jsWs_digitDot_exclusive c)

theorem lineTerm_isJsWs (c : Char) (h : isLineTerm c = true) :
    isJsWs c = true := by
  rw [isLineTerm] at h
  simp only [Bool.or_eq_true, beq_iff_eq] at h
  rcases h with ((rfl | rfl) | rfl) | rfl <;> decide

theorem suffixFromLastTerm_none :
    ∀ l : List Char, suffixFromLastTerm l = none →
      ∀ c ∈ l, isLineTerm c = false := by
  intro l
  induction l with
  | nil =>
    intro _ c hc
    simp at hc
  | cons a cs ih =>
    intro h c hc
    simp only [suffixFromLastTerm] at h
    cases hs : suffixFromLastTerm cs with
    | some r =>
      rw [hs] at h
      exact absurd h (by simp)
    | none =>
      rw [hs] at h
      by_cases ha : isLineTerm a
      · rw [if_pos ha] at h
        exact absurd h (by simp)
      · rcases List.mem_cons.mp hc with rfl | hc2
        · simpa using ha
        · exact ih hs c hc2

theorem suffixFromLastTerm_some :
    ∀ l r : List Char, suffixFromLastTerm l = some r →
      ∃ pre t rtail, l = pre ++ t :: rtail ∧ r = t :: rtail ∧
        isLineTerm t = true := by
  intro l
  induction l with
  | nil =>
    intro r h
    simp [suffixFromLastTerm] at h
  | cons a cs ih =>
    intro r h
    simp only [suffixFromLastTerm] at h
    cases hs : suffixFromLastTerm cs with
    | some rr =>
      rw [hs] at h
      obtain ⟨pre, t, rtail, hcs, hr, ht⟩ := ih rr hs
      refine ⟨a :: pre, t, rtail, ?_, ?_, ht⟩
      · rw [List.cons_append, ← hcs]
      · rw [← Option.some.inj h, hr]
    | none =>
      rw [hs] at h
      by_cases ha : isLineTerm a
      · rw [if_pos ha] at h
        exact ⟨[], a, cs, rfl, (Option.some.inj h).symm, ha⟩
      · rw [if_neg ha] at h
        exact absurd h (by simp)

theorem suffixFromLastTerm_isSome_of_mem (l : List Char) (t : Char)
    (ht : t ∈ l) (hterm : isLineTerm t = true) :
    ∃ r, suffixFromLastTerm l = some r := by
  cases hs : suffixFromLastTerm l with
  | some r => exact ⟨r, rfl⟩
  | none =>
    rw [suffixFromLastTerm_none l hs t ht] at hterm
    exact absurd hterm (by simp)

theorem takeWhile_all_append (p : Char → Bool) (r : List Char) :
    ∀ l : List Char, (∀ c ∈ l, p c = true) →
      (l ++ r).takeWhile p = l ++ r.takeWhile p ∧
      (l ++ r).dropWhile p = r.dropWhile p := by
  intro l
  induction l with
  | nil =>
    intro _
    simp
  | cons a t ih =>
    intro hl
    have ha := hl a (List.mem_cons_self a t)
    have ht := ih (fun c hc => hl c (List.mem_cons_of_mem a hc))
    simp [List.takeWhile_cons, List.dropWhile_cons, ha, ht.1, ht.2]

theorem lineForm_of_spec (name line : List Char) (q : ℚ)
    (h : SpecCounterLine name line q) :
    ∃ vs, lineForm name line = some vs ∧ jsNumber vs = some q := by
  obtain ⟨labels, ws1, vs, ws2, hline, hlab, hws1ne, hws1, hvsne, hvs, hws2, hq⟩ := h
  refine ⟨vs, ?_, hq⟩
  subst hline
  have hdrop : dropPfx name
      (name ++ lbrace :: (labels ++ rbrace :: (ws1 ++ (vs ++ ws2)))) =
      some (lbrace :: (labels ++ rbrace :: (ws1 ++ (vs ++ ws2)))) :=
    (dropPfx_eq_some name _ _).mpr rfl
  rw [lineForm, hdrop]
  simp only [lineFormAfterName]
  rw [if_pos trivial]
  have hmid := takeWhile_middle (fun x => x != rbrace) rbrace (ws1 ++ (vs ++ ws2))
    (by simp) labels (by intro c hc; simpa using hlab c hc)
  rw [hmid.2]
  simp only [lineFormBraceTail, lineFormValueTail]
  obtain ⟨v0, vt, rfl⟩ : ∃ v0 vt, vs = v0 :: vt := by
    cases vs with
    | nil => exact absurd rfl hvsne
    | cons v0 vt => exact ⟨v0, vt, rfl⟩
  have hv0 : isJsWs v0 = false :=
    digitDot_not_jsWs v0 (hvs v0 (List.mem_cons_self v0 vt))
  have hwsplit := takeWhile_middle isJsWs v0 (vt ++ ws2) hv0 ws1 hws1
  have hassoc : ws1 ++ (v0 :: vt ++ ws2) = ws1 ++ v0 :: (vt ++ ws2) := by simp
  rw [hassoc, hwsplit.1, hwsplit.2]
  have hvsplit : ((v0 :: vt) ++ ws2).takeWhile isDigitDot = v0 :: vt ∧
      ((v0 :: vt) ++ ws2).dropWhile isDigitDot = ws2 := by
    cases ws2 with
    | nil =>
      have := takeWhile_all_eq isDigitDot (v0 :: vt) hvs
      simpa using this
    | cons w0 wt =>
      have hw0 : isDigitDot w0 = false :=
        jsWs_not_digitDot w0 (hws2 w0 (List.mem_cons_self w0 wt))
      exact takeWhile_middle isDigitDot w0 wt hw0 (v0 :: vt) hvs
  rw [show v0 :: (vt ++ ws2) = (v0 :: vt) ++ ws2 from rfl, hvsplit.1, hvsplit.2]
  rw [if_neg hws1ne, if_neg (by simp)]
  rw [if_pos (by simpa [List.all_eq_true] using hws2)]

theorem spec_of_lineForm (name line vs : List Char) (q : ℚ)
    (h : lineForm name line = some vs) (hq : jsNumber vs = some q) :
    SpecCounterLine name line q := by
  rw [lineForm] at h
  cases hdrop : dropPfx name line with
  | none =>
    rw [hdrop] at h
    exact absurd h (by simp [lineFormAfterName])
  | some rest =>
    rw [hdrop] at h
    have hline : line = name ++ rest := (dropPfx_eq_some name line rest).mp hdrop
    cases rest with
    | nil => exact absurd h (by simp [lineFormAfterName])
    | cons c r1 =>
      simp only [lineFormAfterName] at h
      by_cases hc : c = lbrace
      · subst hc
        rw [if_pos rfl] at h
        cases hdw : r1.dropWhile (fun x => x != rbrace) with
        | nil =>
          rw [hdw] at h
          exact absurd h (by simp [lineFormBraceTail])
        | cons y r3 =>
          rw [hdw] at h
          have hy : y = rbrace := by
            have hmem := List.head?_dropWhile_not (fun x => x != rbrace) r1
            rw [hdw] at hmem
            simpa using hmem
          subst hy
          have hr1 : r1 = r1.takeWhile (fun x => x != rbrace) ++ rbrace :: r3 := by
            conv_lhs => rw [← List.takeWhile_append_dropWhile
              (p := fun x => x != rbrace) (l := r1)]
            rw [hdw]
          simp only [lineFormBraceTail, lineFormValueTail] at h
          by_cases hws1 : r3.takeWhile isJsWs = []
          · rw [if_pos hws1] at h; exact absurd h (by simp)
          · rw [if_neg hws1] at h
            by_cases hvs : (r3.dropWhile isJsWs).takeWhile isDigitDot = []
            · rw [if_pos hvs] at h; exact absurd h (by simp)
            · rw [if_neg hvs] at h
              by_cases hall : ((r3.dropWhile isJsWs).dropWhile isDigitDot).all isJsWs
              · rw [if_pos hall] at h
                have hvseq : vs = (r3.dropWhile isJsWs).takeWhile isDigitDot :=
                  (Option.some.inj h).symm
                refine ⟨r1.takeWhile (fun x => x != rbrace), r3.takeWhile isJsWs,
                  vs, (r3.dropWhile isJsWs).dropWhile isDigitDot,
                  ?_, ?_, hws1, ?_, ?_, ?_, ?_, hq⟩
                · rw [hvseq]
                  conv_lhs => rw [hline, hr1]
                  congr 1
                  congr 1
                  congr 1
                  congr 1
                  conv_lhs => rw [← List.takeWhile_append_dropWhile
                    (p := isJsWs) (l := r3)]
                  congr 1
                  exact (List.takeWhile_append_dropWhile _ _).symm
                · intro c hc
                  have := List.mem_takeWhile_imp hc
                  simpa using this
                · intro c hc
                  exact List.mem_takeWhile_imp hc
                · rw [hvseq]
                  exact hvs
                · intro c hc
                  rw [hvseq] at hc
                  exact List.mem_takeWhile_imp hc
                · intro c hc
                  exact (List.all_eq_true.mp hall) c hc
              · rw [if_neg hall] at h
                exact absurd h (by simp)
      · rw [if_neg hc] at h
        exact absurd h (by simp)

theorem foldl_countCapture :
    ∀ (cs : List (List Char)) (a : ℚ),
      (∀ vs ∈ cs, (jsNumber vs).isSome = true) →
      cs.foldl countCapture (some a) =
        some (a + (cs.map fun vs => (jsNumber vs).getD 0).sum) := by
  intro cs
  induction cs with
  | nil =>
    intro a _
    simp
  | cons v cs ih =>
    intro a hnum
    have hv := hnum v (List.mem_cons_self v cs)
    obtain ⟨q, hq⟩ := Option.isSome_iff_exists.mp hv
    have hc : countCapture (some a) v = some (a + q) := by
      simp only [countCapture, hq]
    rw [List.foldl_cons, hc,
      ih (a + q) (fun m hm => hnum m (List.mem_cons_of_mem v hm))]
    simp only [List.map_cons, List.sum_cons, hq, Option.getD_some,
      Option.some.injEq]
    ring

theorem tryMatch_of_specMatch (name s : List Char) (q : ℚ)
    (h : SpecMatchAt name s q) :
    ∃ vs rest, tryMatch name s = some (vs, rest) ∧ jsNumber vs = some q := by
  obtain ⟨labels, ws1, vs, ws2, rest0, hline, hlab, hws1ne, hws1, hvsne, hvs,
    hws2, hrest0, hq⟩ := h
  subst hline
  have hdrop : dropPfx name
      (name ++ lbrace ::
        (labels ++ rbrace :: (ws1 ++ (vs ++ (ws2 ++ rest0))))) =
      some (lbrace :: (labels ++ rbrace :: (ws1 ++ (vs ++ (ws2 ++ rest0))))) :=
    (dropPfx_eq_some name _ _).mpr rfl
  rw [tryMatch, hdrop]
  simp only [tryMatchAfterName]
  rw [if_pos trivial]
  have hmid := takeWhile_middle (fun x => x != rbrace) rbrace
    (ws1 ++ (vs ++ (ws2 ++ rest0))) (by simp) labels
    (by intro c hc; simpa using hlab c hc)
  rw [hmid.2]
  simp only [tryMatchBrace, tryMatchTail]
  obtain ⟨v0, vt, rfl⟩ : ∃ v0 vt, vs = v0 :: vt := by
    cases vs with
    | nil => exact absurd rfl hvsne
    | cons v0 vt => exact ⟨v0, vt, rfl⟩
  have hv0 : isJsWs v0 = false :=
    digitDot_not_jsWs v0 (hvs v0 (List.mem_cons_self v0 vt))
  have hwsplit := takeWhile_middle isJsWs v0 (vt ++ (ws2 ++ rest0)) hv0 ws1 hws1
  have hassoc1 : ws1 ++ (v0 :: vt ++ (ws2 ++ rest0)) =
      ws1 ++ v0 :: (vt ++ (ws2 ++ rest0)) := by simp
  rw [hassoc1, hwsplit.1, hwsplit.2]
  rcases hrest0 with rfl | ⟨t, r2, rfl, hterm⟩
  · simp only [List.append_nil]
    have hvsplit : ((v0 :: vt) ++ ws2).takeWhile isDigitDot = v0 :: vt ∧
        ((v0 :: vt) ++ ws2).dropWhile isDigitDot = ws2 := by
      cases hws2e : ws2 with
      | nil => simpa using takeWhile_all_eq isDigitDot (v0 :: vt) hvs
      | cons w0 wt =>
        have hw0 : isDigitDot w0 = false := jsWs_not_digitDot w0
          (hws2 w0 (by rw [hws2e]; exact List.mem_cons_self w0 wt))
        exact takeWhile_middle isDigitDot w0 wt hw0 (v0 :: vt) hvs
    rw [show v0 :: (vt ++ ws2) = (v0 :: vt) ++ ws2 from rfl,
      hvsplit.1, hvsplit.2]
    rw [if_neg hws1ne, if_neg (by simp)]
    have hws2all := takeWhile_all_eq isJsWs ws2 hws2
    rw [hws2all.2, if_pos rfl]
    exact ⟨v0 :: vt, [], rfl, hq⟩
  · have hvsplit :
        ((v0 :: vt) ++ (ws2 ++ t :: r2)).takeWhile isDigitDot = v0 :: vt ∧
        ((v0 :: vt) ++ (ws2 ++ t :: r2)).dropWhile isDigitDot =
          ws2 ++ t :: r2 := by
      cases hws2e : ws2 with
      | nil =>
        have ht : isDigitDot t = false :=
          jsWs_not_digitDot t (lineTerm_isJsWs t hterm)
        simpa using takeWhile_middle isDigitDot t r2 ht (v0 :: vt) hvs
      | cons w0 wt =>
        have hw0 : isDigitDot w0 = false := jsWs_not_digitDot w0
          (hws2 w0 (by rw [hws2e]; exact List.mem_cons_self w0 wt))
        simpa using takeWhile_middle isDigitDot w0 (wt ++ t :: r2) hw0
          (v0 :: vt) hvs
    rw [show v0 :: (vt ++ (ws2 ++ t :: r2)) = (v0 :: vt) ++ (ws2 ++ t :: r2)
      from rfl, hvsplit.1, hvsplit.2]
    rw [if_neg hws1ne, if_neg (by simp)]
    have hwsapp := takeWhile_all_append isJsWs (t :: r2) ws2 hws2
    have htws : isJsWs t = true := lineTerm_isJsWs t hterm
    have htake : (ws2 ++ t :: r2).takeWhile isJsWs =
        ws2 ++ t :: r2.takeWhile isJsWs := by
      rw [hwsapp.1, List.takeWhile_cons, htws]
      simp
    have htmem : t ∈ (ws2 ++ t :: r2).takeWhile isJsWs := by
      rw [htake]
      exact List.mem_append.mpr (Or.inr (List.mem_cons_self _ _))
    by_cases hs7 : (ws2 ++ t :: r2).dropWhile isJsWs = []
    · rw [if_pos hs7]
      exact ⟨v0 :: vt, [], rfl, hq⟩
    · rw [if_neg hs7]
      obtain ⟨r, hr⟩ := suffixFromLastTerm_isSome_of_mem _ t htmem hterm
      rw [hr]
      exact ⟨v0 :: vt, r ++ (ws2 ++ t :: r2).dropWhile isJsWs, rfl, hq⟩

theorem specMatch_of_tryMatch (name s vs rest : List Char) (q : ℚ)
    (h : tryMatch name s = some (vs, rest)) (hq : jsNumber vs = some q) :
    SpecMatchAt name s q := by
  rw [tryMatch] at h
  cases hdrop : dropPfx name s with
  | none =>
    rw [hdrop] at h
    exact absurd h (by simp [tryMatchAfterName])
  | some rest1 =>
    rw [hdrop] at h
    have hline : s = name ++ rest1 := (dropPfx_eq_some name s rest1).mp hdrop
    cases rest1 with
    | nil => exact absurd h (by simp [tryMatchAfterName])
    | cons c s2 =>
      simp only [tryMatchAfterName] at h
      by_cases hc : c = lbrace
      · subst hc
        rw [if_pos rfl] at h
        cases hdw : s2.dropWhile (fun x => x != rbrace) with
        | nil =>
          rw [hdw] at h
          exact absurd h (by simp [tryMatchBrace])
        | cons y s4 =>
          rw [hdw] at h
          have hy : y = rbrace := by
            have hmem := List.head?_dropWhile_not (fun x => x != rbrace) s2
            rw [hdw] at hmem
            simpa using hmem
          subst hy
          have hs2 : s2 = s2.takeWhile (fun x => x != rbrace) ++ rbrace :: s4 := by
            conv_lhs => rw [← List.takeWhile_append_dropWhile
              (p := fun x => x != rbrace) (l := s2)]
            rw [hdw]
          simp only [tryMatchBrace, tryMatchTail] at h
          by_cases hws1 : s4.takeWhile isJsWs = []
          · rw [if_pos hws1] at h
            exact absurd h (by simp)
          · rw [if_neg hws1] at h
            by_cases hvs : (s4.dropWhile isJsWs).takeWhile isDigitDot = []
            · rw [if_pos hvs] at h
              exact absurd h (by simp)
            · rw [if_neg hvs] at h
              by_cases hs7 :
                  ((s4.dropWhile isJsWs).dropWhile isDigitDot).dropWhile
                    isJsWs = []
              · rw [if_pos hs7] at h
                have hvseq : vs = (s4.dropWhile isJsWs).takeWhile isDigitDot :=
                  (congrArg Prod.fst (Option.some.inj h)).symm
                refine ⟨s2.takeWhile (fun x => x != rbrace),
                  s4.takeWhile isJsWs, vs,
                  ((s4.dropWhile isJsWs).dropWhile isDigitDot).takeWhile isJsWs,
                  [], ?_, ?_, hws1, ?_, ?_, ?_, ?_, Or.inl rfl, hq⟩
                · rw [hvseq]
                  conv_lhs => rw [hline, hs2]
                  congr 1
                  congr 1
                  congr 1
                  congr 1
                  conv_lhs => rw [← List.takeWhile_append_dropWhile
                    (p := isJsWs) (l := s4)]
                  congr 1
                  conv_lhs => rw [← List.takeWhile_append_dropWhile
                    (p := isDigitDot) (l := s4.dropWhile isJsWs)]
                  congr 1
                  rw [List.append_nil]
                  conv_lhs => rw [← List.takeWhile_append_dropWhile
                    (p := isJsWs)
                    (l := (s4.dropWhile isJsWs).dropWhile isDigitDot)]
                  rw [hs7, List.append_nil]
                · intro c hc
                  have := List.mem_takeWhile_imp hc
                  simpa using this
                · intro c hc
                  exact List.mem_takeWhile_imp hc
                · rw [hvseq]
                  exact hvs
                · intro c hc
                  rw [hvseq] at hc
                  exact List.mem_takeWhile_imp hc
                · intro c hc
                  exact List.mem_takeWhile_imp hc
              · rw [if_neg hs7] at h
                cases hsuf : suffixFromLastTerm
                    (((s4.dropWhile isJsWs).dropWhile isDigitDot).takeWhile
                      isJsWs) with
                | none =>
                  rw [hsuf] at h
                  exact absurd h (by simp)
                | some r =>
                  rw [hsuf] at h
                  have hvseq : vs =
                      (s4.dropWhile isJsWs).takeWhile isDigitDot :=
                    (congrArg Prod.fst (Option.some.inj h)).symm
                  obtain ⟨pre, t, rtail, hsplit, hr, ht⟩ :=
                    suffixFromLastTerm_some _ r hsuf
                  refine ⟨s2.takeWhile (fun x => x != rbrace),
                    s4.takeWhile isJsWs, vs, pre,
                    t :: (rtail ++
                      ((s4.dropWhile isJsWs).dropWhile isDigitDot).dropWhile
                        isJsWs),
                    ?_, ?_, hws1, ?_, ?_, ?_, ?_,
                    Or.inr ⟨t, _, rfl, ht⟩, hq⟩
                  · rw [hvseq]
                    conv_lhs => rw [hline, hs2]
                    congr 1
                    congr 1
                    congr 1
                    congr 1
                    conv_lhs => rw [← List.takeWhile_append_dropWhile
                      (p := isJsWs) (l := s4)]
                    congr 1
                    conv_lhs => rw [← List.takeWhile_append_dropWhile
                      (p := isDigitDot) (l := s4.dropWhile isJsWs)]
                    congr 1
                    conv_lhs => rw [← List.takeWhile_append_dropWhile
                      (p := isJsWs)
                      (l := (s4.dropWhile isJsWs).dropWhile isDigitDot)]
                    rw [hsplit]
                    simp
                  · intro c hc
                    have := List.mem_takeWhile_imp hc
                    simpa using this
                  · intro c hc
                    exact List.mem_takeWhile_imp hc
                  · rw [hvseq]
                    exact hvs
                  · intro c hc
                    rw [hvseq] at hc
                    exact List.mem_takeWhile_imp hc
                  · intro c hc
                    have hcm : c ∈ ((s4.dropWhile isJsWs).dropWhile
                        isDigitDot).takeWhile isJsWs := by
                      rw [hsplit]
                      exact List.mem_append.mpr (Or.inl hc)
                    exact List.mem_takeWhile_imp hcm
      · rw [if_neg hc] at h
        exact absurd h (by simp)

/-- C9 counterexample: on the two-line text built from name-brace-brace,
a space, a newline and the digit 5, the regex of parseCounter matches
across the line break — its mandatory whitespace consumes the space and
the newline — so the program returns 5, although neither line of the
text has the claim's one-line form, and the claimed per-line sum would
be 0. -/
theorem C9_parseCounter_counterexample :
    parseCounter "name\x7b\x7d \n5" "name" = some 5 ∧
    (∀ l ∈ ("name\x7b\x7d \n5" : String).data.splitOn '\n',
      ∀ q : ℚ, ¬ SpecCounterLine "name".data l q) ∧
    parseCounter "name\x7b\x7d \n5" "name" ≠ some 0 := by
  have d5 : digitVal '5' = ((5 : ℕ) : ℚ) := rfl
  have h5 : parseCounter "name\x7b\x7d \n5" "name" =
      some (0 + natValChars ['5']) := rfl
  refine ⟨?_, ?_, ?_⟩
  · rw [h5]
    simp [natValChars, d5]
  · intro l hl q hspec
    have hsplit : ("name\x7b\x7d \n5" : String).data.splitOn '\n' =
        [("name\x7b\x7d " : String).data, ("5" : String).data] := rfl
    rw [hsplit] at hl
    obtain ⟨vsx, hm, _⟩ := lineForm_of_spec "name".data l q hspec
    rcases List.mem_cons.mp hl with rfl | hl2
    · rw [show lineForm "name".data ("name\x7b\x7d " : String).data = none
        from rfl] at hm
      exact Option.noConfusion hm
    · rw [List.mem_singleton.mp hl2] at hm
      rw [show lineForm "name".data ("5" : String).data = none from rfl] at hm
      exact Option.noConfusion hm
  · intro hx
    rw [h5] at hx
    have hz := Option.some.inj hx
    simp [natValChars, d5] at hz

/-- C9 amended: parseCounter returns the sum of the numeric values
captured by scanning the whole metrics text with the g/m regex: each
match starts at a line start and ends at a line end, but its label block
and whitespace may span line terminators, so a match may cover several
lines.  An attempt at a position succeeds with value q exactly when the
text there has the pattern's shape; when the scan finds no match the
result is 0; and a bare "name value" without a label block in braces
never begins a match, hence never counts toward the sum. -/
theorem C9_parseCounter_sums_scan_matches (text name : String)
    (hnum : ∀ vs ∈ scanText name.data (text.data.length + 1) text.data,
      (jsNumber vs).isSome = true) :
    parseCounter text name =
      some (((scanText name.data (text.data.length + 1) text.data).map
        fun vs => (jsNumber vs).getD 0).sum) ∧
    (∀ s q, SpecMatchAt name.data s q ↔
      ∃ vs rest, tryMatch name.data s = some (vs, rest) ∧
        jsNumber vs = some q) ∧
    (scanText name.data (text.data.length + 1) text.data = [] →
      parseCounter text name = some 0) ∧
    (∀ vs, tryMatch name.data (name.data ++ ' ' :: vs) = none) := by
  have h1 : parseCounter text name =
      some (((scanText name.data (text.data.length + 1) text.data).map
        fun vs => (jsNumber vs).getD 0).sum) := by
    rw [parseCounter, foldl_countCapture _ 0 hnum]
    simp
  refine ⟨h1, ?_, ?_, ?_⟩
  · intro s q
    constructor
    · exact tryMatch_of_specMatch name.data s q
    · rintro ⟨vs, rest, hm, hv⟩
      exact specMatch_of_tryMatch name.data s vs rest q hm hv
  · intro hempty
    rw [parseCounter, hempty]
    rfl
  · intro vs
    rw [tryMatch, (dropPfx_eq_some name.data _ _).mpr rfl]
    simp only [tryMatchAfterName]
    rw [if_neg (by decide)]

/-- Concrete Prometheus text for the C9 witness: two labelled samples of
the counter and one bare, label-less line. -/
def sampleMetricsText : String :=
  "openstream_ingest_events_total\x7btopic=\"orders\",partition=\"0\"\x7d 2\nopenstream_ingest_events_total\x7btopic=\"orders\",partition=\"1\"\x7d 3.5\nopenstream_ingest_events_total 7"

set_option maxRecDepth 100000 in
theorem C9_parseCounter_sums_scan_matches_witness :
    parseCounter sampleMetricsText "openstream_ingest_events_total" =
      some (11 / 2) := by
  have h := C9_parseCounter_sums_scan_matches sampleMetricsText
    "openstream_ingest_events_total" (by decide)
  rw [h.1]
  have hmap : (scanText "openstream_ingest_events_total".data
      (sampleMetricsText.data.length + 1) sampleMetricsText.data).map
      (fun vs => (jsNumber vs).getD 0) =
      [natValChars ['2'], natValChars ['3'] + fracValChars ['5']] := rfl
  rw [hmap]
  have d2 : digitVal '2' = ((2 : ℕ) : ℚ) := rfl
  have d3 : digitVal '3' = ((3 : ℕ) : ℚ) := rfl
  have d5 : digitVal '5' = ((5 : ℕ) : ℚ) := rfl
  simp [natValChars, fracValChars, d2, d3, d5]
  norm_num

/-- A JSON value, as far as the ack request body needs. -/
inductive Json where
  | str (s : String)
  | num (n : ℚ)
  | arr (items : List Json)
  | obj (fields : List (String × Json))

/-- Field lookup on a JSON object. -/
def Json.lookup (j : Json) (k : String) : Option Json :=
  match j with
  | Json.obj fs => List.lookup k fs
  | _ => none

/-- The keys of a JSON object, in order. -/
def keysOf (j : Json) : List String :=
  match j with
  | Json.obj fs => fs.map (fun f => f.1)
  | _ => []

/-- Read a string out of a JSON value. -/
def asStr (j : Json) : Option String :=
  match j with
  | Json.str s => some s
  | _ => none

/-- Read a string array stored under a key. -/
def getStrList (j : Json) (k : String) : Option (List String) :=
  match j.lookup k with
  | some (Json.arr xs) => xs.mapM asStr
  | _ => none

/-- The elements of the array stored under a key. -/
def itemsArr (j : Json) (k : String) : List Json :=
  match j.lookup k with
  | some (Json.arr xs) => xs
  | _ => []

/-- One item of the ack request body as the README walkthrough documents
it: an object with a partition number and the acknowledged identifiers
under the key "redis_ids". -/
def ackItemJson (partition : ℚ) (ids : List String) : Json :=
  Json.obj [("partition", Json.num partition),
    ("redis_ids", Json.arr (ids.map Json.str))]

/-- The whole ack request body of
POST /v1/topics/topic/groups/group/ack per the README walkthrough:
an "items" array of per-partition items. -/
def ackBodyJson (items : List (ℚ × List String)) : Json :=
  Json.obj [("items", Json.arr (items.map fun it => ackItemJson it.1 it.2))]

/-- C3 counterexample: in the README's own ack example the item for
partition 0 with identifier 1730000000000-0 has no field named "ids";
its keys are "partition" and "redis_ids". -/
theorem C3_ack_ids_field_counterexample :
    ((ackItemJson 0 ["1730000000000-0"]).lookup "ids").isNone = true ∧
    keysOf (ackItemJson 0 ["1730000000000-0"]) = ["partition", "redis_ids"] := by
  constructor
  · rfl
  · rfl

theorem mapM_asStr_map (ids : List String) :
    (ids.map Json.str).mapM asStr = some ids := by
  induction ids with
  | nil => rfl
  | cons s t ih =>
    rw [List.map_cons, List.mapM_cons]
    rw [ih]
    rfl

/-- C3 amended: the ack request body is an object whose single key is
"items"; each batch item appears in that array as an object whose keys
are "partition" and "redis_ids", the identifier list being held under
the field named "redis_ids" (not "ids"). -/
theorem C3_ack_body_shape (items : List (ℚ × List String)) (p : ℚ)
    (ids : List String) (hmem : (p, ids) ∈ items) :
    keysOf (ackBodyJson items) = ["items"] ∧
    ackItemJson p ids ∈ itemsArr (ackBodyJson items) "items" ∧
    keysOf (ackItemJson p ids) = ["partition", "redis_ids"] ∧
    getStrList (ackItemJson p ids) "redis_ids" = some ids ∧
    (ackItemJson p ids).lookup "partition" = some (Json.num p) := by
  have e1 : (("redis_ids" : String) == "partition") = false := rfl
  have e2 : (("redis_ids" : String) == "redis_ids") = true := rfl
  have e3 : (("partition" : String) == "partition") = true := rfl
  have e4 : (("items" : String) == "items") = true := rfl
  refine ⟨rfl, ?_, rfl, ?_, ?_⟩
  · show ackItemJson p ids ∈ itemsArr (ackBodyJson items) "items"
    have harr : itemsArr (ackBodyJson items) "items" =
        items.map fun it => ackItemJson it.1 it.2 := by
      rw [itemsArr, ackBodyJson, Json.lookup, List.lookup, e4]
    rw [harr]
    exact List.mem_map.mpr ⟨(p, ids), hmem, rfl⟩
  · rw [getStrList, ackItemJson, Json.lookup, List.lookup, e1, List.lookup, e2]
    exact mapM_asStr_map ids
  · rw [ackItemJson, Json.lookup, List.lookup, e3]

theorem C3_ack_body_shape_witness :
    getStrList (ackItemJson 0 ["1730000000000-0"]) "redis_ids" =
      some ["1730000000000-0"] :=
  (C3_ack_body_shape [(0, ["1730000000000-0"])] 0 ["1730000000000-0"]
    (List.mem_singleton.mpr rfl)).2.2.2.1

/-- A log entry identifier: a coarse timestamp with a per-timestamp
sequence counter.  Modelled from the spec: log-assigned monotonic
identifier, composite of a coarse timestamp and a per-timestamp sequence
number; the ordered-log storage primitive itself is outside this tree. -/
structure LogId where
  ts : Nat
  seq : Nat
deriving Repr, DecidableEq

/-- Numeric order on log identifiers: the (timestamp, sequence) pair
compared lexicographically. -/
def LogId.lt (a b : LogId) : Prop :=
  a.ts < b.ts ∨ (a.ts = b.ts ∧ a.seq < b.seq)

/-- Modelled from the spec: the id the Ordered Log assigns to the next
append, given the last assigned id and the current coarse timestamp — a
strictly later timestamp starts a fresh sequence at 0, otherwise the
sequence of the last id is incremented, so the new id always exceeds the
last even if the clock stalls or runs backwards. -/
def nextId (last : Option LogId) (now : Nat) : LogId :=
  match last with
  | none => ⟨now, 0⟩
  | some l => if l.ts < now then ⟨now, 0⟩ else ⟨l.ts, l.seq + 1⟩

/-- Append one entry to a partition's log (the list of assigned ids in
append order), at coarse timestamp now. -/
def appendEntry (log : List LogId) (now : Nat) : List LogId :=
  log ++ [nextId log.getLast? now]

/-- Append a sequence of entries, one per clock reading. -/
def appendAll (log : List LogId) (clocks : List Nat) : List LogId :=
  clocks.foldl appendEntry log

theorem logIdLt_trans : ∀ a b c : LogId, LogId.lt a b → LogId.lt b c → LogId.lt a c := by
  intro a b c h1 h2
  rcases h1 with h1 | ⟨e1, s1⟩ <;> rcases h2 with h2 | ⟨e2, s2⟩
  · exact Or.inl (h1.trans h2)
  · exact Or.inl (by omega)
  · exact Or.inl (by omega)
  · exact Or.inr ⟨by omega, by omega⟩

instance logIdLtIsTrans : IsTrans LogId LogId.lt :=
  ⟨logIdLt_trans⟩

theorem nextId_gt (l : LogId) (now : Nat) : LogId.lt l (nextId (some l) now) := by
  rw [nextId]
  by_cases hlt : l.ts < now
  · rw [if_pos hlt]
    exact Or.inl hlt
  · rw [if_neg hlt]
    exact Or.inr ⟨rfl, Nat.lt_succ_self _⟩

theorem chain_appendEntry (log : List LogId) (now : Nat)
    (h : List.Chain' LogId.lt log) :
    List.Chain' LogId.lt (appendEntry log now) := by
  rw [appendEntry, List.chain'_append]
  refine ⟨h, List.chain'_singleton _, ?_⟩
  intro x hx y hy
  simp only [List.head?_cons, Option.mem_def, Option.some.injEq] at hy
  rw [Option.mem_def] at hx
  rw [hx] at hy
  rw [← hy]
  exact nextId_gt x now

theorem appendAll_chain :
    ∀ (clocks : List Nat) (log : List LogId), List.Chain' LogId.lt log →
      List.Chain' LogId.lt (appendAll log clocks) := by
  intro clocks
  induction clocks with
  | nil => intro log h; exact h
  | cons now rest ih =>
    intro log h
    rw [appendAll, List.foldl_cons]
    exact ih (appendEntry log now) (chain_appendEntry log now h)

/-- C4: for every partition and every sequence of appends — any clock
readings, including stalled or backward clocks — the log-assigned
identifiers are strictly increasing in append order, both between
neighbours and pairwise. -/
theorem C4_log_ids_strictly_increasing (clocks : List Nat) :
    List.Chain' LogId.lt (appendAll [] clocks) ∧
    List.Pairwise LogId.lt (appendAll [] clocks) := by
  have h := appendAll_chain clocks [] List.chain'_nil
  exact ⟨h, List.chain'_iff_pairwise.mp h⟩

/-- A partition lease.  Modelled from the spec: (partition → holder
identity, expiry), at most one valid holder per partition at any instant;
the Redis-lock-backed implementation is outside this tree. -/
structure LeaseState where
  holder : Option (String × Nat)
deriving Repr, DecidableEq

/-- Case split of lease acquisition on the stored holder cell. -/
def tryAcquireAt : Option (String × Nat) → String → Nat → Nat →
    LeaseState × Bool
  | none, who, now, ttl => (⟨some (who, now + ttl)⟩, true)
  | some (h0, exp), who, now, ttl =>
    if exp ≤ now then (⟨some (who, now + ttl)⟩, true)
    else if h0 = who then (⟨some (who, now + ttl)⟩, true)
    else (⟨some (h0, exp)⟩, false)

/-- Modelled from the spec: lease acquisition by an atomic conditional
write with expiry — it succeeds only if no live holder exists (none, or
the previous lease has expired) or the existing holder is the caller
(renewal); on success the expiry becomes now + ttl. -/
def tryAcquire (st : LeaseState) (who : String) (now ttl : Nat) :
    LeaseState × Bool :=
  tryAcquireAt st.holder who now ttl

/-- Modelled from the spec: release clears the lease only for its holder. -/
def release (st : LeaseState) (who : String) : LeaseState :=
  match st.holder with
  | some (h0, _) => if h0 = who then ⟨none⟩ else st
  | none => st

/-- The holder relation: who holds the partition lease at instant t. -/
def holds (st : LeaseState) (who : String) (t : Nat) : Prop :=
  ∃ exp, st.holder = some (who, exp) ∧ t < exp

theorem tryAcquire_granted_state (st : LeaseState) (who : String)
    (now ttl : Nat) (st1 : LeaseState)
    (h : tryAcquire st who now ttl = (st1, true)) :
    st1 = ⟨some (who, now + ttl)⟩ := by
  rw [tryAcquire] at h
  cases hh : st.holder with
  | none =>
    rw [hh] at h
    simp only [tryAcquireAt] at h
    exact (congrArg Prod.fst h).symm
  | some p =>
    obtain ⟨h0, exp⟩ := p
    rw [hh] at h
    simp only [tryAcquireAt] at h
    by_cases he : exp ≤ now
    · rw [if_pos he] at h
      exact (congrArg Prod.fst h).symm
    · rw [if_neg he] at h
      by_cases hw : h0 = who
      · rw [if_pos hw] at h
        exact (congrArg Prod.fst h).symm
      · rw [if_neg hw] at h
        exact absurd (congrArg Prod.snd h) (by simp)

/-- C5: at every instant a partition's lease has at most one holder; and
after a holder acquires and then crashes (no release, no renewal), a
different instance's acquisition attempt is denied strictly before the
acquisition time plus ttl and granted from that point on — ownership
transfers only after the ttl has elapsed. -/
theorem C5_lease_exclusive_until_ttl :
    (∀ (st : LeaseState) (h1 h2 : String) (t : Nat),
      holds st h1 t → holds st h2 t → h1 = h2) ∧
    (∀ (st0 : LeaseState) (hA : String) (t0 ttl : Nat) (st1 : LeaseState),
      tryAcquire st0 hA t0 ttl = (st1, true) →
      ∀ (hB : String) (t ttl2 : Nat), hB ≠ hA → t < t0 + ttl →
        (tryAcquire st1 hB t ttl2).2 = false) ∧
    (∀ (st0 : LeaseState) (hA : String) (t0 ttl : Nat) (st1 : LeaseState),
      tryAcquire st0 hA t0 ttl = (st1, true) →
      ∀ (hB : String) (t ttl2 : Nat), t0 + ttl ≤ t →
        (tryAcquire st1 hB t ttl2).2 = true) := by
  refine ⟨?_, ?_, ?_⟩
  · intro st h1 h2 t ⟨e1, he1, _⟩ ⟨e2, he2, _⟩
    rw [he1] at he2
    exact (Prod.mk.injEq _ _ _ _ ▸ Option.some.inj he2).1
  · intro st0 hA t0 ttl st1 hacq hB t ttl2 hne hlt
    rw [tryAcquire_granted_state st0 hA t0 ttl st1 hacq]
    rw [tryAcquire]
    simp only [tryAcquireAt]
    rw [if_neg (by omega), if_neg (fun hc => hne hc.symm)]
  · intro st0 hA t0 ttl st1 hacq hB t ttl2 hle
    rw [tryAcquire_granted_state st0 hA t0 ttl st1 hacq]
    rw [tryAcquire]
    simp only [tryAcquireAt]
    rw [if_pos hle]

theorem C5_lease_exclusive_until_ttl_witness :
    (tryAcquire ((tryAcquire ⟨none⟩ "A" 0 10).1) "B" 5 10).2 = false ∧
    (tryAcquire ((tryAcquire ⟨none⟩ "A" 0 10).1) "B" 10 10).2 = true := by
  have h := C5_lease_exclusive_until_ttl
  constructor
  · exact h.2.1 ⟨none⟩ "A" 0 10 ⟨some ("A", 10)⟩ rfl "B" 5 10
      (by decide) (by decide)
  · exact h.2.2 ⟨none⟩ "A" 0 10 ⟨some ("A", 10)⟩ rfl "B" 10 10 (by decide)

/-- The Retry-After hint a backpressure rejection carries, in
milliseconds.  Modelled from the spec: a rejection signals retry-after. -/
def retryAfterHintMs : Nat := 1000

/-- Per-event outcome of an ingest batch. -/
inductive IngestResult where
  | appended (partition : Nat)
  | rejected (retryAfterMs : Nat)
deriving Repr, DecidableEq

/-- Modelled from the spec: backpressure admission for one partition —
admit only while the partition's stream length is below the configured
BACKPRESSURE_MAX_STREAM_LEN. -/
def admission (maxLen len : Nat) : Bool := len < maxLen

/-- Modelled from the spec: the Ingestion Gateway processes a batch in
submission order; each event's target partition is checked against the
Backpressure Monitor; admitted events are appended (growing that
partition's stream length), rejected ones get a retry hint, and the rest
of the batch continues. -/
def ingestBatch (maxLen : Nat) (lens : Nat → Nat) :
    List Nat → (Nat → Nat) × List IngestResult
  | [] => (lens, [])
  | p :: rest =>
    if admission maxLen (lens p) then
      let step := ingestBatch maxLen (fun q => if q = p then lens p + 1 else lens q) rest
      (step.1, IngestResult.appended p :: step.2)
    else
      let step := ingestBatch maxLen lens rest
      (step.1, IngestResult.rejected retryAfterHintMs :: step.2)

/-- C6: with BACKPRESSURE_MAX_STREAM_LEN = 100, an entry targeted at a
partition whose stream is already at length 100 is rejected with a retry
hint, while an entry of the same batch targeted at a different partition
below the threshold is appended (its length grows by one and the full
partition is untouched). -/
theorem C6_backpressure_per_partition (lens : Nat → Nat) (p q : Nat)
    (hpq : p ≠ q) (hp : lens p = 100) (hq : lens q < 100) :
    (ingestBatch 100 lens [p, q]).2 =
      [IngestResult.rejected retryAfterHintMs, IngestResult.appended q] ∧
    (ingestBatch 100 lens [p, q]).1 q = lens q + 1 ∧
    (ingestBatch 100 lens [p, q]).1 p = lens p := by
  have hadp : admission 100 (lens p) = false := by
    rw [admission, hp]
    simp
  have hadq : admission 100 (lens q) = true := by
    rw [admission]
    simpa using hq
  simp only [ingestBatch, hadp, hadq, Bool.false_eq_true, if_false, if_true]
  refine ⟨by simp, by simp, by simp [hpq]⟩

theorem C6_backpressure_per_partition_witness :
    (ingestBatch 100 (fun n => if n = 0 then 100 else 0) [0, 1]).2 =
      [IngestResult.rejected retryAfterHintMs, IngestResult.appended 1] :=
  (C6_backpressure_per_partition (fun n => if n = 0 then 100 else 0) 0 1
    (by decide) (by decide) (by decide)).1

/-- Fuel-driven most-significant-first decimal digit extraction; any fuel
at least n yields the digits of n, and the structural recursion keeps it
kernel-computable. -/
def digitsCore : Nat → Nat → List Nat
  | 0, _ => []
  | fuel + 1, n => if n = 0 then [] else digitsCore fuel (n / 10) ++ [n % 10]

/-- The decimal digits of n, most significant first, with a single 0
digit for n = 0. -/
def natDigits (n : Nat) : List Nat := if n = 0 then [0] else digitsCore n n

/-- The character of one decimal digit. -/
def digitChar (d : Nat) : Char := Char.ofNat (48 + d)

/-- Decimal rendering of a natural number as characters. -/
def renderNat (n : Nat) : List Char := (natDigits n).map digitChar

/-- Modelled from the spec: a log identifier string
"<coarse-timestamp>-<sequence>" as it appears at the external interface,
e.g. 1730000000000-0; the log primitive that mints them is outside this
tree. -/
def mkLogId (ts seq : Nat) : String := ⟨renderNat ts ++ '-' :: renderNat seq⟩

/-- The numeric value of a most-significant-first digit list. -/
def valMSB (l : List Nat) : Nat := l.foldl (fun a d => 10 * a + d) 0

theorem valMSB_aux : ∀ (l : List Nat) (x : Nat),
    l.foldl (fun a d => 10 * a + d) x = x * 10 ^ l.length + valMSB l := by
  intro l
  induction l with
  | nil => intro x; simp [valMSB]
  | cons d t ih =>
    intro x
    rw [List.foldl_cons, ih, List.length_cons, Nat.pow_succ]
    have hv : valMSB (d :: t) = d * 10 ^ t.length + valMSB t := by
      rw [valMSB, List.foldl_cons, ih]
      simp
    rw [hv]
    ring

theorem valMSB_cons (d : Nat) (l : List Nat) :
    valMSB (d :: l) = d * 10 ^ l.length + valMSB l := by
  rw [valMSB, List.foldl_cons, valMSB_aux]
  simp

theorem valMSB_append_singleton (l : List Nat) (d : Nat) :
    valMSB (l ++ [d]) = 10 * valMSB l + d := by
  rw [valMSB, List.foldl_append]
  simp [valMSB]

theorem valMSB_lt_pow : ∀ l : List Nat, (∀ d ∈ l, d < 10) →
    valMSB l < 10 ^ l.length := by
  intro l
  induction l with
  | nil => intro _; simp [valMSB]
  | cons d t ih =>
    intro h
    rw [valMSB_cons]
    have hd : d < 10 := h d (List.mem_cons_self d t)
    have ht := ih (fun x hx => h x (List.mem_cons_of_mem d hx))
    calc d * 10 ^ t.length + valMSB t
        < d * 10 ^ t.length + 10 ^ t.length := add_lt_add_left ht _
      _ = (d + 1) * 10 ^ t.length := by ring
      _ ≤ 10 * 10 ^ t.length := mul_le_mul_right' hd _
      _ = 10 ^ (d :: t).length := by rw [List.length_cons, Nat.pow_succ]; ring

theorem digitsCore_val : ∀ fuel n : Nat, n ≤ fuel →
    valMSB (digitsCore fuel n) = n := by
  intro fuel
  induction fuel with
  | zero =>
    intro n hn
    rw [Nat.le_zero.mp hn]
    rfl
  | succ f ih =>
    intro n hn
    rw [digitsCore]
    by_cases h0 : n = 0
    · rw [if_pos h0, h0]
      rfl
    · rw [if_neg h0, valMSB_append_singleton]
      have hdiv : n / 10 < n := Nat.div_lt_self (Nat.pos_of_ne_zero h0) (by norm_num)
      rw [ih (n / 10) (by omega)]
      omega

theorem digitsCore_lt : ∀ fuel n : Nat, ∀ d ∈ digitsCore fuel n, d < 10 := by
  intro fuel
  induction fuel with
  | zero => intro n d hd; simp [digitsCore] at hd
  | succ f ih =>
    intro n d hd
    rw [digitsCore] at hd
    by_cases h0 : n = 0
    · rw [if_pos h0] at hd
      simp at hd
    · rw [if_neg h0] at hd
      rcases List.mem_append.mp hd with hm | hm
      · exact ih (n / 10) d hm
      · rw [List.mem_singleton.mp hm]
        exact Nat.mod_lt n (by norm_num)

theorem natDigits_val (n : Nat) : valMSB (natDigits n) = n := by
  rw [natDigits]
  by_cases h0 : n = 0
  · rw [if_pos h0, h0]
    rfl
  · rw [if_neg h0]
    exact digitsCore_val n n le_rfl

theorem natDigits_lt (n : Nat) : ∀ d ∈ natDigits n, d < 10 := by
  intro d hd
  rw [natDigits] at hd
  by_cases h0 : n = 0
  · rw [if_pos h0] at hd
    rw [List.mem_singleton.mp hd]
    norm_num
  · rw [if_neg h0] at hd
    exact digitsCore_lt n n d hd

theorem natDigits_eq_iff (m n : Nat) : natDigits m = natDigits n ↔ m = n := by
  constructor
  · intro h
    have := congrArg valMSB h
    rwa [natDigits_val, natDigits_val] at this
  · intro h
    rw [h]

theorem digitChar_lt_iff (d1 d2 : Nat) (h1 : d1 < 10) (h2 : d2 < 10) :
    (digitChar d1 < digitChar d2 ↔ d1 < d2) := by
  interval_cases d1 <;> interval_cases d2 <;> decide

theorem digitChar_eq_iff (d1 d2 : Nat) (h1 : d1 < 10) (h2 : d2 < 10) :
    (digitChar d1 = digitChar d2 ↔ d1 = d2) := by
  interval_cases d1 <;> interval_cases d2 <;> decide

theorem charListLt_cons_iff (a b : Char) (as bs : List Char) :
    List.lt (a :: as) (b :: bs) ↔ (a < b ∨ (a = b ∧ List.lt as bs)) := by
  constructor
  · intro h
    cases h with
    | head _ _ hab => exact Or.inl hab
    | tail h1 h2 h3 =>
      exact Or.inr ⟨le_antisymm (not_lt.mp h2) (not_lt.mp h1), h3⟩
  · intro h
    rcases h with hab | ⟨rfl, h⟩
    · exact List.lt.head _ _ hab
    · exact List.lt.tail (lt_irrefl a) (lt_irrefl a) h

theorem nil_not_lt_nil : ¬ List.lt ([] : List Char) [] := by
  intro h
  cases h

theorem valMSB_cons_lt_iff (a b : Nat) (as bs : List Nat)
    (has : ∀ d ∈ as, d < 10) (hbs : ∀ d ∈ bs, d < 10)
    (hlen : as.length = bs.length) :
    (valMSB (a :: as) < valMSB (b :: bs) ↔
      (a < b ∨ (a = b ∧ valMSB as < valMSB bs))) := by
  rw [valMSB_cons, valMSB_cons, hlen]
  have hx : valMSB as < 10 ^ bs.length := by
    rw [← hlen]
    exact valMSB_lt_pow as has
  have hy : valMSB bs < 10 ^ bs.length := valMSB_lt_pow bs hbs
  constructor
  · intro h
    rcases Nat.lt_trichotomy a b with hab | hab | hab
    · exact Or.inl hab
    · subst hab
      exact Or.inr ⟨rfl, Nat.add_lt_add_iff_left.mp h⟩
    · exfalso
      have hchain : b * 10 ^ bs.length + valMSB bs < a * 10 ^ bs.length := by
        calc b * 10 ^ bs.length + valMSB bs
            < b * 10 ^ bs.length + 10 ^ bs.length := add_lt_add_left hy _
          _ = (b + 1) * 10 ^ bs.length := by ring
          _ ≤ a * 10 ^ bs.length := mul_le_mul_right' hab _
      exact absurd (h.trans (lt_of_lt_of_le hchain
        (Nat.le_add_right _ (valMSB as)))) (lt_irrefl _)
  · intro h
    rcases h with hab | ⟨rfl, hxy⟩
    · calc a * 10 ^ bs.length + valMSB as
          < a * 10 ^ bs.length + 10 ^ bs.length := add_lt_add_left hx _
        _ = (a + 1) * 10 ^ bs.length := by ring
        _ ≤ b * 10 ^ bs.length := mul_le_mul_right' hab _
        _ ≤ b * 10 ^ bs.length + valMSB bs := Nat.le_add_right _ _
    · exact add_lt_add_left hxy _

theorem lex_digits (r1 r2 : List Char) :
    ∀ (l1 l2 : List Nat), (∀ d ∈ l1, d < 10) → (∀ d ∈ l2, d < 10) →
      l1.length = l2.length →
      (List.lt (l1.map digitChar ++ r1) (l2.map digitChar ++ r2) ↔
        (valMSB l1 < valMSB l2 ∨ (l1 = l2 ∧ List.lt r1 r2))) := by
  intro l1
  induction l1 with
  | nil =>
    intro l2 _ _ hlen
    cases l2 with
    | nil => simp [valMSB]
    | cons b bs => simp at hlen
  | cons a as ih =>
    intro l2 h1 h2 hlen
    cases l2 with
    | nil => simp at hlen
    | cons b bs =>
      have ha : a < 10 := h1 a (List.mem_cons_self a as)
      have hb : b < 10 := h2 b (List.mem_cons_self b bs)
      have has : ∀ d ∈ as, d < 10 := fun d hd => h1 d (List.mem_cons_of_mem a hd)
      have hbs : ∀ d ∈ bs, d < 10 := fun d hd => h2 d (List.mem_cons_of_mem b hd)
      have hlen2 : as.length = bs.length := by simpa using hlen
      rw [List.map_cons, List.map_cons, List.cons_append, List.cons_append]
      rw [charListLt_cons_iff]
      rw [digitChar_lt_iff a b ha hb, digitChar_eq_iff a b ha hb]
      rw [ih bs has hbs hlen2]
      rw [valMSB_cons_lt_iff a b as bs has hbs hlen2]
      simp only [List.cons.injEq]
      tauto

/-- C2 amended: for log identifiers whose timestamp parts render to the
same number of decimal digits and whose sequence parts render to the same
number of decimal digits, lexicographic string comparison agrees exactly
with numeric comparison of the (timestamp, sequence) pair. -/
theorem C2_logId_lex_matches_pair_same_width (t1 s1 t2 s2 : Nat)
    (hts : (natDigits t1).length = (natDigits t2).length)
    (hseq : (natDigits s1).length = (natDigits s2).length) :
    (mkLogId t1 s1 < mkLogId t2 s2 ↔ (t1 < t2 ∨ (t1 = t2 ∧ s1 < s2))) := by
  have h := lex_digits ('-' :: renderNat s1) ('-' :: renderNat s2)
    (natDigits t1) (natDigits t2) (natDigits_lt t1) (natDigits_lt t2) hts
  have hstr : (mkLogId t1 s1 < mkLogId t2 s2) ↔
      List.lt ((natDigits t1).map digitChar ++ ('-' :: renderNat s1))
        ((natDigits t2).map digitChar ++ ('-' :: renderNat s2)) := by
    rw [String.lt_iff_toList_lt]
    exact (List.lt_iff_lex_lt _ _).symm
  have hs : List.lt ('-' :: renderNat s1) ('-' :: renderNat s2) ↔ s1 < s2 := by
    rw [charListLt_cons_iff]
    have h2 := lex_digits [] [] (natDigits s1) (natDigits s2)
      (natDigits_lt s1) (natDigits_lt s2) hseq
    rw [List.append_nil, List.append_nil] at h2
    rw [show renderNat s1 = (natDigits s1).map digitChar from rfl,
      show renderNat s2 = (natDigits s2).map digitChar from rfl, h2,
      natDigits_val, natDigits_val, natDigits_eq_iff]
    simp [lt_irrefl, nil_not_lt_nil]
  rw [hstr, h, natDigits_val, natDigits_val, natDigits_eq_iff, hs]

/-- C2 counterexample: with identifiers 100-2 and 100-10, the
(timestamp, sequence) pair (100, 2) is numerically below (100, 10), yet
the string 100-2 is not lexicographically below 100-10 (the digit-width
difference makes 100-10 compare below 100-2), so lexicographic and
numeric comparison disagree. -/
theorem C2_logId_lex_counterexample :
    ¬ ((mkLogId 100 2 < mkLogId 100 10) ↔
      (100 < 100 ∨ (100 = 100 ∧ 2 < 10))) := by
  have hb : (mkLogId 100 2 < mkLogId 100 10) ↔
      @LT.lt (List Char) List.instLT (mkLogId 100 2).toList
        (mkLogId 100 10).toList := by
    rw [String.lt_iff_toList_lt]
    exact (List.lt_iff_lex_lt _ _).symm
  rw [hb]
  decide

theorem C2_logId_lex_matches_pair_same_width_witness :
    mkLogId 100 2 < mkLogId 100 3 :=
  (C2_logId_lex_matches_pair_same_width 100 2 100 3 rfl rfl).mpr
    (Or.inr ⟨rfl, by decide⟩)

end OpenStream
